import Mathlib

/-!
Verification development for the LatNet Builder core (digital-net search
library).  The C++ sources under study are shallowly embedded below:

* real-valued quantities (`double`, `Real`) are modelled as `ℚ`;
* `std::pow` on reals with real exponent is abstracted as an explicit
  function argument `rpow : ℚ → ℚ → ℚ` passed to the norm-bound sums;
* C++ `unsigned int` arithmetic is modelled with `Nat`; every theorem about
  a function that subtracts carries hypotheses ruling out wrap-around, so
  truncated `Nat` subtraction and C++ modular subtraction agree on the
  inputs the theorems speak about;
* functions that `throw` are modelled with `Except String`;
* components whose implementation files are not part of the studied
  sources (the progressive row reducer's implementation, the composition
  enumerator, the minimum observer) are modelled from the specification,
  as indicated in their doc comments.
-/

namespace LatNet

/-! ## Weights data model

Modelled from the spec: the LatticeTester weight classes store a vector of
explicit weights plus a default weight returned for indices beyond the
vector (order-dependent weights are indexed by projection order, product
weights by coordinate). -/

/-- Order-dependent weights: a vector of per-order weights and a default. -/
structure OrderDependentWeights where
  weights : List ℚ
  defaultWeight : ℚ
deriving DecidableEq

/-- Weight for a given order: the stored entry, or the default beyond the vector. -/
def OrderDependentWeights.getWeightForOrder (w : OrderDependentWeights) (order : ℕ) : ℚ :=
  w.weights.getD order w.defaultWeight

/-- Number of stored per-order weights (`getSize()` in the C++ class). -/
def OrderDependentWeights.getSize (w : OrderDependentWeights) : ℕ :=
  w.weights.length

/-- Product weights: a vector of per-coordinate weights and a default. -/
structure ProductWeights where
  weights : List ℚ
  defaultWeight : ℚ
deriving DecidableEq

/-- Weight for a given coordinate: the stored entry, or the default beyond the vector. -/
def ProductWeights.getWeightForCoordinate (w : ProductWeights) (coord : ℕ) : ℚ :=
  w.weights.getD coord w.defaultWeight

/-! ## ComputeMaxCardFromWeights

Embedded from `include/netbuilder/Parser/ComputeMaxCardFromWeights.h`.
The C++ specializations throw `std::invalid_argument` when the default
weight is positive; this is modelled with `Except String`. -/

/-- Specialization for order-dependent weights: reject a positive default
weight, otherwise scan stored orders `1, …, getSize()-1` and keep the last
one whose weight is nonzero. -/
def computeMaxCardOrderDependent (w : OrderDependentWeights) : Except String ℕ :=
  if 0 < w.defaultWeight then
    .error "The figure of merit does not support these weights: default weight must be zero."
  else
    .ok ((List.range' 1 (w.getSize - 1)).foldl
      (fun maxCard i => if w.getWeightForOrder i ≠ 0 then i else maxCard) 0)

/-- Specialization for product weights: reject a positive default weight,
otherwise return the size of the stored weights vector. -/
def computeMaxCardProduct (w : ProductWeights) : Except String ℕ :=
  if 0 < w.defaultWeight then
    .error "The figure of merit does not support these weights: default weight must be zero."
  else
    .ok w.weights.length

/-! ## IAAlpha kernel functor

Embedded from the `IAAlpha` constructor: the body throws when `alpha < 2`
and then when `interlacingFactor < 2`; otherwise construction succeeds. -/

/-- Outcome of running the `IAAlpha(alpha, interlacingFactor)` constructor. -/
def iaAlphaConstruct (alpha interlacingFactor : ℕ) : Except String Unit :=
  if alpha < 2 then
    .error "Interlaced A alpha kernel requires alpha > 1"
  else if interlacingFactor < 2 then
    .error "Interlaced A alpha kernel requires interlacing factor > 1"
  else
    .ok ()

/-! ## PAlphaSL10 norm-bound sums

Embedded from `src/LatBuilder/Norm/PAlphaSL10.cc`.  `Real` is modelled as
`ℚ` and `std::pow` as the explicit argument `rpow`.  The weight shapes a
`WeightsDispatcher::dispatch` call can encounter are collected in one
inductive type, with `combined` holding the member list of a
`CombinedWeights` object. -/

/-- POD weights: an order-dependent part and a product part. -/
structure PODWeights where
  od : OrderDependentWeights
  prod : ProductWeights
deriving DecidableEq

/-- Projection-dependent weights, grouped by largest coordinate index; for
each projection only its cardinality and weight enter the sums, so a
projection is recorded as the pair (cardinality, weight). -/
structure ProjectionDependentWeights where
  byLargest : List (List (ℕ × ℚ))
deriving DecidableEq

/-- The weight shapes recognized by the dispatcher. -/
inductive CWeights where
  | orderDep (w : OrderDependentWeights)
  | product (w : ProductWeights)
  | pod (w : PODWeights)
  | projDep (w : ProjectionDependentWeights)
  | combined (ws : List CWeights)

/-- Order-dependent specialization of `SumHelper::operator()`: the running
factor `cumul` is multiplied by `(dimension - order + 1) * z / order` at
every order, and orders with nonzero weight contribute
`cumul * rpow weight (lambda * 2 / normType)`. -/
def sumOrderDep (rpow : ℚ → ℚ → ℚ) (normType z lambda : ℚ) (dimension : ℕ)
    (w : OrderDependentWeights) : ℚ :=
  ((List.range' 1 dimension).foldl
    (fun vc order =>
      let cumul := vc.2 * ((dimension - order + 1 : ℕ) : ℚ) * z / (order : ℚ)
      let weight := w.getWeightForOrder order
      (if weight ≠ 0 then vc.1 + cumul * rpow weight (lambda * 2 / normType) else vc.1,
        cumul))
    (0, 1)).1

/-- Product specialization of `SumHelper::operator()`. -/
def sumProduct (rpow : ℚ → ℚ → ℚ) (normType z lambda : ℚ) (dimension : ℕ)
    (w : ProductWeights) : ℚ :=
  ((List.range dimension).foldl
    (fun val coord =>
      let weight := w.getWeightForCoordinate coord
      if weight ≠ 0 then val * (1 + z * rpow weight (lambda * 2 / normType)) else val)
    1) - 1

/-- One step of the POD dynamic program: append a zero state and add
`z * pweight * states[order-1]` to `states[order]` for every order above 0. -/
def podStep (z pweight : ℚ) (states : List ℚ) : List ℚ :=
  List.zipWith (fun cur prev => cur + z * pweight * prev) (states ++ [0]) (0 :: states)

/-- POD specialization of `SumHelper::operator()`: a two-layer dynamic
program over dimensions, then a weighted sum over orders. -/
def sumPOD (rpow : ℚ → ℚ → ℚ) (normType z lambda : ℚ) (dimension : ℕ)
    (w : PODWeights) : ℚ :=
  let states := (List.range' 1 dimension).foldl
    (fun states s =>
      podStep z (rpow (w.prod.getWeightForCoordinate s) (lambda * 2 / normType)) states)
    [1]
  (List.range' 1 dimension).foldl
    (fun val order =>
      val + rpow (w.od.getWeightForOrder order) (lambda * 2 / normType) * (states.getD order 0))
    0

/-- Projection-dependent specialization of `SumHelper::operator()`. -/
def sumProjDep (rpow : ℚ → ℚ → ℚ) (normType z lambda : ℚ) (dimension : ℕ)
    (w : ProjectionDependentWeights) : ℚ :=
  (List.range dimension).foldl
    (fun val largestIndex =>
      (w.byLargest.getD largestIndex []).foldl
        (fun val pw =>
          if pw.2 ≠ 0 then val + z ^ pw.1 * rpow pw.2 (lambda * 2 / normType) else val)
        val)
    0

mutual

/-- Dispatch of `SumHelper` over the dynamic weight shape.  In the
`combined` case the C++ `sumCombined` passes `lambda * 2 / normType` (not
`lambda`) as the member's lambda argument. -/
def sumHelper (rpow : ℚ → ℚ → ℚ) (normType z lambda : ℚ) (dimension : ℕ) :
    CWeights → ℚ
  | .orderDep w => sumOrderDep rpow normType z lambda dimension w
  | .product w => sumProduct rpow normType z lambda dimension w
  | .pod w => sumPOD rpow normType z lambda dimension w
  | .projDep w => sumProjDep rpow normType z lambda dimension w
  | .combined ws => sumHelperList rpow normType z (lambda * 2 / normType) dimension ws

/-- Sum of the dispatched member sums, as in `sumCombined`'s loop. -/
def sumHelperList (rpow : ℚ → ℚ → ℚ) (normType z lambda : ℚ) (dimension : ℕ) :
    List CWeights → ℚ
  | [] => 0
  | w :: ws =>
      sumHelper rpow normType z lambda dimension w +
        sumHelperList rpow normType z lambda dimension ws

end

/-- A computable stand-in for real exponentiation on the rationals, exact
on integer exponents; used to instantiate `rpow` on concrete inputs. -/
def qpow (b e : ℚ) : ℚ :=
  if e.den = 1 then b ^ e.num else 0

/-- The value scanned by the order-dependent max-card loop: the last order
in `1, …, getSize()-1` whose weight is nonzero, or `0`. -/
def maxCardOrderDependentValue (w : OrderDependentWeights) : ℕ :=
  (List.range' 1 (w.getSize - 1)).foldl
    (fun maxCard i => if w.getWeightForOrder i ≠ 0 then i else maxCard) 0

theorem computeMaxCardOrderDependent_eq_ok (w : OrderDependentWeights)
    (hd : ¬ 0 < w.defaultWeight) :
    computeMaxCardOrderDependent w = .ok (maxCardOrderDependentValue w) := by
  simp [computeMaxCardOrderDependent, maxCardOrderDependentValue, hd]

theorem maxCardFold_ge (w : OrderDependentWeights) (n : ℕ) :
    ∀ i, 1 ≤ i → i ≤ n → w.getWeightForOrder i ≠ 0 →
      i ≤ (List.range' 1 n).foldl
        (fun maxCard j => if w.getWeightForOrder j ≠ 0 then j else maxCard) 0 := by
  induction n with
  | zero => intro i h1 h0 _; omega
  | succ n ih =>
      intro i h1 hn hw
      rw [List.range'_1_concat, List.foldl_append]
      simp only [List.foldl_cons, List.foldl_nil]
      by_cases hlast : w.getWeightForOrder (1 + n) ≠ 0
      · rw [if_pos hlast]; omega
      · rw [if_neg hlast]
        rcases Nat.lt_or_ge i (n + 1) with h | h
        · exact ih i h1 (by omega) hw
        · exfalso
          apply hlast
          rw [show (1 + n) = i by omega]
          exact hw

theorem maxCardFold_spec (w : OrderDependentWeights) (n : ℕ) :
    (List.range' 1 n).foldl
        (fun maxCard j => if w.getWeightForOrder j ≠ 0 then j else maxCard) 0 = 0 ∨
      w.getWeightForOrder ((List.range' 1 n).foldl
        (fun maxCard j => if w.getWeightForOrder j ≠ 0 then j else maxCard) 0) ≠ 0 := by
  induction n with
  | zero => left; rfl
  | succ n ih =>
      rw [List.range'_1_concat, List.foldl_append]
      simp only [List.foldl_cons, List.foldl_nil]
      by_cases hlast : w.getWeightForOrder (1 + n) ≠ 0
      · rw [if_pos hlast]; right; exact hlast
      · rw [if_neg hlast]; exact ih

/-- C7: with a zero default weight and non-negative weights (the spec's
weights are non-negative functions on projections), the order-dependent
max-card computation succeeds and returns the largest order with strictly
positive weight (`0` when there is none). -/
theorem claim_C7_maxCard_orderDependent (w : OrderDependentWeights)
    (hd : w.defaultWeight = 0)
    (hnn : ∀ k, 0 ≤ w.getWeightForOrder k) :
    computeMaxCardOrderDependent w = .ok (maxCardOrderDependentValue w) ∧
      (∀ k, 0 < w.getWeightForOrder k → k ≤ maxCardOrderDependentValue w) ∧
      (maxCardOrderDependentValue w = 0 ∨
        0 < w.getWeightForOrder (maxCardOrderDependentValue w)) := by
  refine ⟨computeMaxCardOrderDependent_eq_ok w (by rw [hd]; exact lt_irrefl 0), ?_, ?_⟩
  · intro k hk
    rcases Nat.eq_zero_or_pos k with rfl | h1
    · exact Nat.zero_le _
    rcases Nat.lt_or_ge k w.getSize with hlt | hge
    · exact maxCardFold_ge w (w.getSize - 1) k h1 (by omega) (ne_of_gt hk)
    · exfalso
      have : w.getWeightForOrder k = w.defaultWeight :=
        List.getD_eq_default _ _ hge
      rw [this, hd] at hk
      exact lt_irrefl 0 hk
  · rcases maxCardFold_spec w (w.getSize - 1) with h | h
    · left; exact h
    · right
      exact lt_of_le_of_ne (hnn _) (Ne.symm h)

/-- C7 witness: order-dependent weights with weight 1 for order 3 and zero
elsewhere give max card 3. -/
theorem claim_C7_maxCard_orderDependent_witness :
    maxCardOrderDependentValue ⟨[0, 0, 0, 1], 0⟩ = 3 ∧
      (computeMaxCardOrderDependent ⟨[0, 0, 0, 1], 0⟩ =
          .ok (maxCardOrderDependentValue ⟨[0, 0, 0, 1], 0⟩) ∧
        (∀ k, 0 < OrderDependentWeights.getWeightForOrder ⟨[0, 0, 0, 1], 0⟩ k →
          k ≤ maxCardOrderDependentValue ⟨[0, 0, 0, 1], 0⟩) ∧
        (maxCardOrderDependentValue ⟨[0, 0, 0, 1], 0⟩ = 0 ∨
          0 < OrderDependentWeights.getWeightForOrder ⟨[0, 0, 0, 1], 0⟩
            (maxCardOrderDependentValue ⟨[0, 0, 0, 1], 0⟩))) :=
  ⟨by norm_num [maxCardOrderDependentValue, OrderDependentWeights.getWeightForOrder,
      OrderDependentWeights.getSize, List.range'],
    claim_C7_maxCard_orderDependent ⟨[0, 0, 0, 1], 0⟩ rfl (by
      intro k
      rcases k with _ | _ | _ | _ | k <;>
        norm_num [OrderDependentWeights.getWeightForOrder, List.getD])⟩

/-- C8 counterexample: product weights storing γ for coordinates 0 and 1 as
[1, 0] with zero default.  Coordinate 0 has the only strictly positive
weight, yet the computation returns 2, the size of the stored vector, whose
weight (under either a 0-based or a 1-based reading) is zero. -/
theorem claim_C8_maxCard_product_counterexample :
    computeMaxCardProduct ⟨[1, 0], 0⟩ = .ok 2 ∧
      0 < ProductWeights.getWeightForCoordinate ⟨[1, 0], 0⟩ 0 ∧
      ProductWeights.getWeightForCoordinate ⟨[1, 0], 0⟩ 1 = 0 ∧
      ProductWeights.getWeightForCoordinate ⟨[1, 0], 0⟩ 2 = 0 := by
  refine ⟨?_, ?_, ?_, ?_⟩ <;>
    norm_num [computeMaxCardProduct, ProductWeights.getWeightForCoordinate, List.getD]

/-- C8 (amended): with a non-positive default weight, the product-weights
max-card computation returns the length of the stored per-coordinate
weights vector, regardless of which stored weights are positive. -/
theorem claim_C8_maxCard_product (w : ProductWeights)
    (hd : ¬ 0 < w.defaultWeight) :
    computeMaxCardProduct w = .ok w.weights.length := by
  simp [computeMaxCardProduct, hd]

/-- C8 witness at the stored vector [1, 0]. -/
theorem claim_C8_maxCard_product_witness :
    computeMaxCardProduct ⟨[1, 0], 0⟩ = .ok 2 :=
  claim_C8_maxCard_product ⟨[1, 0], 0⟩ (by norm_num)

/-- C9: a strictly positive default weight makes both max-card
computations fail with an invalid-argument error instead of returning a
cardinality. -/
theorem claim_C9_maxCard_rejects_positive_default
    (wo : OrderDependentWeights) (wp : ProductWeights)
    (ho : 0 < wo.defaultWeight) (hp : 0 < wp.defaultWeight) :
    (computeMaxCardOrderDependent wo).isOk = false ∧
      (computeMaxCardProduct wp).isOk = false := by
  constructor
  · simp [computeMaxCardOrderDependent, ho, Except.isOk, Except.toBool]
  · simp [computeMaxCardProduct, hp, Except.isOk, Except.toBool]

/-- C9 witness with default weight 1 on both families. -/
theorem claim_C9_maxCard_rejects_positive_default_witness :
    (computeMaxCardOrderDependent ⟨[], 1⟩).isOk = false ∧
      (computeMaxCardProduct ⟨[], 1⟩).isOk = false :=
  claim_C9_maxCard_rejects_positive_default ⟨[], 1⟩ ⟨[], 1⟩ (by norm_num) (by norm_num)

/-- C10: the IAAlpha constructor rejects any interlacing factor below 2
(for every alpha, including alpha at least 2), and construction succeeds
precisely when both alpha and the interlacing factor are at least 2. -/
theorem claim_C10_iaAlpha_construct (alpha interlacingFactor : ℕ) :
    (interlacingFactor < 2 → (iaAlphaConstruct alpha interlacingFactor).isOk = false) ∧
      ((iaAlphaConstruct alpha interlacingFactor).isOk = true ↔
        2 ≤ alpha ∧ 2 ≤ interlacingFactor) := by
  unfold iaAlphaConstruct
  constructor
  · intro h
    split
    · rfl
    · rfl
  · constructor
    · intro h
      split at h
      · simp [Except.isOk, Except.toBool] at h
      · split at h
        · simp [Except.isOk, Except.toBool] at h
        · constructor <;> omega
    · intro hc
      rw [if_neg (by omega), if_neg (by omega)]
      rfl

/-- C10 witness: alpha 5 with interlacing factor 1 is rejected, and alpha 2
with interlacing factor 2 is accepted. -/
theorem claim_C10_iaAlpha_construct_witness :
    (iaAlphaConstruct 5 1).isOk = false ∧ (iaAlphaConstruct 2 2).isOk = true :=
  ⟨(claim_C10_iaAlpha_construct 5 1).1 (by decide),
    (claim_C10_iaAlpha_construct 2 2).2.mpr ⟨le_refl 2, le_refl 2⟩⟩

/-- C6 counterexample: a combined weight with a single order-dependent
member (weight 2 at order 1), at normType 1, z 1, lambda 1, dimension 1.
The combined sum dispatches the member at lambda·2/normType = 2, giving
pow(2,4) = 16, while the member evaluated at the same lambda gives
pow(2,2) = 4. -/
theorem claim_C6_sumCombined_counterexample :
    sumHelper qpow 1 1 1 1 (.combined [.orderDep ⟨[0, 2], 0⟩]) = 16 ∧
      sumHelper qpow 1 1 1 1 (.orderDep ⟨[0, 2], 0⟩) = 4 := by
  constructor <;>
    norm_num [sumHelper, sumHelperList, sumOrderDep, qpow,
      OrderDependentWeights.getWeightForOrder, List.range']

theorem sumHelperList_eq_sum (rpow : ℚ → ℚ → ℚ) (normType z lambda : ℚ)
    (dimension : ℕ) (ws : List CWeights) :
    sumHelperList rpow normType z lambda dimension ws =
      (ws.map (sumHelper rpow normType z lambda dimension)).sum := by
  induction ws with
  | nil => rfl
  | cons w ws ih => rw [sumHelperList, ih, List.map_cons, List.sum_cons]

/-- C6 (amended): the combined PAlphaSL10 norm-bound sum equals the sum
over the member list of the member sum evaluated with the same normType, z
and dimension, but with lambda replaced by lambda * 2 / normType. -/
theorem claim_C6_sumCombined (rpow : ℚ → ℚ → ℚ) (normType z lambda : ℚ)
    (dimension : ℕ) (ws : List CWeights) :
    sumHelper rpow normType z lambda dimension (.combined ws) =
      (ws.map (sumHelper rpow normType z (lambda * 2 / normType) dimension)).sum := by
  rw [sumHelper, sumHelperList_eq_sum]

/-! ## Random search driver

`RandomSearch::execute` is embedded from its header.  The merit of a net is
a `WithTop ℚ` (`⊤` standing for an infinite merit).  The pseudo-random
generating-value stream, the per-coordinate value type and the net
construction are abstracted as parameters (they are external collaborators
of the loop being studied). -/

/-- Modelled from the spec: the `MinimumObserver` (its implementation is
not among the studied sources) tracks the best net and merit seen so far;
a candidate replaces the recorded best when its merit is strictly below
the best merit so far (infinity when none was recorded), so a candidate
with infinite merit is never recorded and ties keep the first-seen net. -/
structure MinObserverState (ν : Type) where
  best : Option (ν × WithTop ℚ)

/-- Observe one candidate with its merit. -/
def MinObserverState.observe {ν : Type} (st : MinObserverState ν) (net : ν)
    (merit : WithTop ℚ) : MinObserverState ν :=
  match st.best with
  | none => if merit < ⊤ then ⟨some (net, merit)⟩ else st
  | some (_, bestMerit) => if merit < bestMerit then ⟨some (net, merit)⟩ else st

/-- Whether the observer has recorded any net (`hasFoundNet`). -/
def MinObserverState.hasFoundNet {ν : Type} (st : MinObserverState ν) : Bool :=
  st.best.isSome

/-- Outcome of a search: either `onFailedSearch` fired and no best net was
selected, or `selectBestNet` ran on a net and its merit. -/
inductive SearchOutcome (ν : Type) where
  | failed
  | selected (net : ν) (merit : WithTop ℚ)

/-- The attempt loop of `RandomSearch::execute`: for each attempt, draw one
generating value per coordinate, build the net, evaluate it and pass it to
the observer.  The list of evaluated (net, merit) pairs is returned
alongside the final observer state. -/
def rsLoop {γ ν : Type} (gen : ℕ → ℕ → γ) (mkNet : List γ → ν)
    (eval : ν → WithTop ℚ) (dimension : ℕ) :
    ℕ → ℕ → MinObserverState ν → List (ν × WithTop ℚ) →
      MinObserverState ν × List (ν × WithTop ℚ)
  | 0, _, obs, tr => (obs, tr)
  | remaining + 1, attempt, obs, tr =>
      let genVals := (List.range dimension).map (gen attempt)
      let net := mkNet genVals
      let merit := eval net
      rsLoop gen mkNet eval dimension remaining (attempt + 1)
        (obs.observe net merit) (tr ++ [(net, merit)])

/-- `RandomSearch::execute`: run `nbTries` attempts starting from an empty
observer; if the observer found no net, fire `onFailedSearch`, otherwise
select the observer's best net and merit. -/
def randomSearchExecute {γ ν : Type} (gen : ℕ → ℕ → γ) (mkNet : List γ → ν)
    (eval : ν → WithTop ℚ) (dimension nbTries : ℕ) :
    SearchOutcome ν × List (ν × WithTop ℚ) :=
  ((match (rsLoop gen mkNet eval dimension nbTries 1 ⟨none⟩ []).1.best with
    | none => SearchOutcome.failed
    | some (net, merit) => SearchOutcome.selected net merit),
    (rsLoop gen mkNet eval dimension nbTries 1 ⟨none⟩ []).2)

/-- Fold the observer over a list of evaluated candidates. -/
def observeFold {ν : Type} (tr : List (ν × WithTop ℚ)) : MinObserverState ν :=
  tr.foldl (fun obs c => obs.observe c.1 c.2) ⟨none⟩

theorem rsLoop_spec {γ ν : Type} (gen : ℕ → ℕ → γ) (mkNet : List γ → ν)
    (eval : ν → WithTop ℚ) (dimension : ℕ) :
    ∀ (remaining attempt : ℕ) (obs : MinObserverState ν)
      (tr : List (ν × WithTop ℚ)),
      ∃ fresh : List (ν × WithTop ℚ),
        rsLoop gen mkNet eval dimension remaining attempt obs tr =
            (fresh.foldl (fun o c => o.observe c.1 c.2) obs, tr ++ fresh) ∧
          fresh.length = remaining ∧
          ∀ c ∈ fresh, c.2 = eval c.1 := by
  intro remaining
  induction remaining with
  | zero =>
      intro attempt obs tr
      exact ⟨[], by simp [rsLoop]⟩
  | succ n ih =>
      intro attempt obs tr
      obtain ⟨fresh, heq, hlen, hev⟩ :=
        ih (attempt + 1) (obs.observe (mkNet ((List.range dimension).map (gen attempt)))
          (eval (mkNet ((List.range dimension).map (gen attempt)))))
          (tr ++ [(mkNet ((List.range dimension).map (gen attempt)),
            eval (mkNet ((List.range dimension).map (gen attempt))))])
      refine ⟨(mkNet ((List.range dimension).map (gen attempt)),
        eval (mkNet ((List.range dimension).map (gen attempt)))) :: fresh, ?_, ?_, ?_⟩
      · rw [rsLoop, heq]
        simp
      · simp [hlen]
      · intro c hc
        rcases List.mem_cons.mp hc with rfl | hc
        · rfl
        · exact hev c hc

theorem observe_of_best_none {ν : Type} (obs : MinObserverState ν) (net : ν)
    (merit : WithTop ℚ) (h : obs.best = none) :
    obs.observe net merit = if merit < ⊤ then ⟨some (net, merit)⟩ else obs := by
  unfold MinObserverState.observe
  rw [h]

theorem observe_of_best_some {ν : Type} (obs : MinObserverState ν) (net : ν)
    (merit : WithTop ℚ) (bn : ν) (bm : WithTop ℚ) (h : obs.best = some (bn, bm)) :
    obs.observe net merit = if merit < bm then ⟨some (net, merit)⟩ else obs := by
  unfold MinObserverState.observe
  rw [h]

theorem observeFold_best_none_iff {ν : Type} (obs : MinObserverState ν)
    (tr : List (ν × WithTop ℚ)) :
    (tr.foldl (fun o c => o.observe c.1 c.2) obs).best = none ↔
      obs.best = none ∧ ∀ c ∈ tr, c.2 = ⊤ := by
  induction tr generalizing obs with
  | nil => simp
  | cons c tr ih =>
      rw [List.foldl_cons, ih]
      rcases hobs : obs.best with _ | ⟨bn, bm⟩
      · rw [observe_of_best_none obs c.1 c.2 hobs]
        by_cases hm : c.2 < ⊤
        · rw [if_pos hm]
          constructor
          · rintro ⟨h1, _⟩
            simp at h1
          · rintro ⟨_, hall⟩
            exact absurd (hall c (List.mem_cons_self c tr)) hm.ne
        · rw [if_neg hm]
          have hc : c.2 = ⊤ := by
            by_contra hne
            exact hm (WithTop.lt_top_iff_ne_top.mpr hne)
          constructor
          · rintro ⟨_, h2⟩
            refine ⟨rfl, fun d hd => ?_⟩
            rcases List.mem_cons.mp hd with rfl | hd
            · exact hc
            · exact h2 d hd
          · rintro ⟨_, h2⟩
            exact ⟨hobs, fun d hd => h2 d (List.mem_cons_of_mem c hd)⟩
      · rw [observe_of_best_some obs c.1 c.2 bn bm hobs]
        constructor
        · rintro ⟨h1, _⟩
          by_cases hm : c.2 < bm
          · rw [if_pos hm] at h1
            simp at h1
          · rw [if_neg hm] at h1
            rw [hobs] at h1
            simp at h1
        · rintro ⟨h1, _⟩
          simp at h1

/-- C5: the random search performs exactly `nbTries` evaluations, each
candidate is passed to the observer with its evaluator merit, the search
fails (fires `onFailedSearch`, selecting no net) exactly when no evaluated
candidate has a finite merit, and otherwise it selects exactly the
observer's recorded best net and merit. -/
theorem claim_C5_randomSearch {γ ν : Type} (gen : ℕ → ℕ → γ)
    (mkNet : List γ → ν) (eval : ν → WithTop ℚ) (dimension nbTries : ℕ) :
    (randomSearchExecute gen mkNet eval dimension nbTries).2.length = nbTries ∧
      (∀ c ∈ (randomSearchExecute gen mkNet eval dimension nbTries).2,
        c.2 = eval c.1) ∧
      ((randomSearchExecute gen mkNet eval dimension nbTries).1 = .failed ↔
        ∀ c ∈ (randomSearchExecute gen mkNet eval dimension nbTries).2, c.2 = ⊤) ∧
      (∀ net merit,
        (randomSearchExecute gen mkNet eval dimension nbTries).1 =
            .selected net merit ↔
          (observeFold
            (randomSearchExecute gen mkNet eval dimension nbTries).2).best =
            some (net, merit)) := by
  obtain ⟨fresh, heq, hlen, hev⟩ :=
    rsLoop_spec gen mkNet eval dimension nbTries 1 ⟨none⟩ []
  have h2 : (randomSearchExecute gen mkNet eval dimension nbTries).2 = fresh := by
    rw [randomSearchExecute, heq]
    simp
  have h1 : (randomSearchExecute gen mkNet eval dimension nbTries).1 =
      (match (fresh.foldl (fun o c => o.observe c.1 c.2)
          (⟨none⟩ : MinObserverState ν)).best with
        | none => SearchOutcome.failed
        | some (net, merit) => SearchOutcome.selected net merit) := by
    rw [randomSearchExecute, heq]
  have hfold : observeFold fresh =
      fresh.foldl (fun o c => o.observe c.1 c.2) (⟨none⟩ : MinObserverState ν) := rfl
  rw [h1, h2]
  refine ⟨hlen, hev, ?_, ?_⟩
  · rcases hb : (fresh.foldl (fun o c => o.observe c.1 c.2)
        (⟨none⟩ : MinObserverState ν)).best with _ | ⟨net0, merit0⟩
    · rw [hb]
      simp only [true_iff]
      exact ((observeFold_best_none_iff ⟨none⟩ fresh).mp hb).2
    · rw [hb]
      constructor
      · intro h
        cases h
      · intro h
        have hnone : (fresh.foldl (fun o c => o.observe c.1 c.2)
            (⟨none⟩ : MinObserverState ν)).best = none :=
          (observeFold_best_none_iff ⟨none⟩ fresh).mpr ⟨rfl, h⟩
        rw [hnone] at hb
        cases hb
  · intro net merit
    rw [hfold]
    rcases hb : (fresh.foldl (fun o c => o.observe c.1 c.2)
        (⟨none⟩ : MinObserverState ν)).best with _ | ⟨net0, merit0⟩
    · rw [hb]
      constructor
      · intro h
        cases h
      · intro h
        cases h
    · rw [hb]
      constructor
      · intro h
        cases h
        rfl
      · intro h
        cases h
        rfl

/-! ## GF(2) rows and rank

A generating matrix row is a list of bits; `rankAux c rows` computes the
rank of the submatrix made of the first `c` columns by Gaussian
elimination (choosing in each column the first row with a leading one, as
the reducer's pivot rule prescribes). -/

/-- A row of a matrix over GF(2). -/
abbrev Row := List Bool

/-- Row addition over GF(2). -/
def xorRow (a b : Row) : Row := List.zipWith xor a b

/-- Rank of the first `c` columns of `rows` over GF(2). -/
def rankAux : ℕ → List Row → ℕ
  | 0, _ => 0
  | c + 1, rows =>
      match rows.findIdx? (fun r => r.headD false) with
      | none => rankAux c (rows.map List.tail)
      | some i =>
          let p := rows.getD i []
          let rest := (rows.eraseIdx i).map
            (fun r => if r.headD false then xorRow r p else r)
          1 + rankAux c (rest.map List.tail)

theorem rankAux_le (c : ℕ) : ∀ rows : List Row, rankAux c rows ≤ c := by
  induction c with
  | zero => intro rows; exact le_refl 0
  | succ c ih =>
      intro rows
      rw [rankAux]
      rcases h : rows.findIdx? (fun r => r.headD false) with _ | i <;> simp only [h]
      · exact le_trans (ih _) (Nat.le_succ c)
      · rw [Nat.add_comm]
        exact Nat.succ_le_succ (ih _)

/-- A generating matrix: shape plus a list of rows. -/
structure GeneratingMatrix where
  nRows : ℕ
  nCols : ℕ
  rows : List Row
deriving Inhabited

/-- Row `i` of a matrix, i.e. `subMatrix(i, 0, 1, nCols)`. -/
def GeneratingMatrix.row (M : GeneratingMatrix) (i : ℕ) : Row :=
  M.rows.getD i (List.replicate M.nCols false)

/-! ## Progressive row reducer

Modelled from the spec: the reducer's implementation file is not among
the studied sources (only its header is).  The observable state is the
list of logical rows currently held (`addRow` appends a row, `replaceRow`
substitutes one in place — the header documents both as pure mutations of
the logical matrix), plus a ghost trace of the operations performed,
recorded so that theorems can speak about the sequence of mutations.
`smallestFullRank` is, per the header, the minimal number of columns
needed for the system spanned by the rows to be of full rank, and
`nCols() + 1` when even all columns do not suffice. -/

/-- One reducer mutation, for the ghost operation trace. -/
inductive RROp where
  | addRowOp (row : Row)
  | replaceRowOp (index : ℕ) (row : Row)

/-- Reducer state: column count, logical rows, ghost trace. -/
structure ProgressiveRowReducer where
  nCols : ℕ
  rows : List Row
  trace : List RROp

/-- Fresh reducer with `nCols` columns. -/
def ProgressiveRowReducer.create (nCols : ℕ) : ProgressiveRowReducer :=
  ⟨nCols, [], []⟩

/-- Stack one row below the current matrix. -/
def ProgressiveRowReducer.addRow (st : ProgressiveRowReducer) (row : Row) :
    ProgressiveRowReducer :=
  { st with rows := st.rows ++ [row], trace := st.trace ++ [.addRowOp row] }

/-- Replace the row at `index` by `row`. -/
def ProgressiveRowReducer.replaceRow (st : ProgressiveRowReducer) (index : ℕ)
    (row : Row) : ProgressiveRowReducer :=
  { st with rows := st.rows.set index row,
            trace := st.trace ++ [.replaceRowOp index row] }

/-- Least number of columns whose span has full row rank; `nCols + 1` when
no prefix of columns achieves it. -/
def ProgressiveRowReducer.smallestFullRank (st : ProgressiveRowReducer) : ℕ :=
  ((List.range (st.nCols + 1)).find?
    (fun c => rankAux c st.rows == st.rows.length)).getD (st.nCols + 1)

theorem smallestFullRank_spec (st : ProgressiveRowReducer) :
    st.smallestFullRank = st.nCols + 1 ∨
      (st.smallestFullRank ≤ st.nCols ∧
        rankAux st.smallestFullRank st.rows = st.rows.length) := by
  unfold ProgressiveRowReducer.smallestFullRank
  rcases h : (List.range (st.nCols + 1)).find?
      (fun c => rankAux c st.rows == st.rows.length) with _ | c
  · left; rfl
  · right
    have hmem := List.mem_range.mp (List.mem_of_find?_eq_some h)
    have hp := List.find?_some h
    exact ⟨by simpa using Nat.lt_succ_iff.mp hmem, by simpa using hp⟩

/-- When a column prefix achieves full rank, it has at least as many
columns as there are rows. -/
theorem smallestFullRank_ge_rows (st : ProgressiveRowReducer)
    (h : st.smallestFullRank ≤ st.nCols) :
    st.rows.length ≤ st.smallestFullRank := by
  rcases smallestFullRank_spec st with heq | ⟨_, hrank⟩
  · omega
  · rw [← hrank]
    exact rankAux_le _ _

/-! ## Single-net t-value routine `iteration_on_k`

Embedded from `GaussMethod.cc`.  The composition enumerator's
implementation is not among the studied sources; modelled from the spec,
it emits a sequence of single-unit-move transitions
`((fromPart, fromUnit), (toPart, toUnit))`, which is abstracted here as an
input list of deltas. -/

/-- A composition transition: one unit moves from `(part, unit)` to
`(part, unit)`. -/
abbrev CompositionDelta := (ℕ × ℕ) × (ℕ × ℕ)

/-- The row map from original matrices to reducer rows
(`Origin_to_M` in the source); absent keys read as 0, mirroring
`std::map::operator[]` default insertion. -/
abbrev OriginMap := ℕ × ℕ → Option ℕ

/-- The rows stacked into the reducer by the seeding loops of
`iteration_on_k`, in order: the first `k-s+1` rows of matrix `s-1`, then
the first row of each matrix `s-1-i` for `i = 1, …, s-1`. -/
def seedLayout (baseMatrices : List GeneratingMatrix) (k : ℕ) : List Row :=
  let s := baseMatrices.length
  (List.range (k - s + 1)).map (fun i => (baseMatrices.getD (s - 1) default).row i) ++
    (List.range' 1 (s - 1)).map (fun i => (baseMatrices.getD (s - 1 - i) default).row 0)

/-- The reducer state after the two seeding loops. -/
def seedReducer (baseMatrices : List GeneratingMatrix) (k : ℕ) : ProgressiveRowReducer :=
  (seedLayout baseMatrices k).foldl ProgressiveRowReducer.addRow
    (ProgressiveRowReducer.create (baseMatrices.getD 0 default).nCols)

/-- The `Origin_to_M` contents after the two seeding loops. -/
def seedOriginMap (k s : ℕ) : OriginMap := fun p =>
  if p.1 = 1 ∧ 1 ≤ p.2 ∧ p.2 ≤ k - s + 1 then some (p.2 - 1)
  else if 2 ≤ p.1 ∧ p.1 ≤ s ∧ p.2 = 1 then some (k - s + (p.1 - 1)) else none

/-- The composition loop of `iteration_on_k`: per delta, look up and remap
the reducer row at the moved unit, replace that row by row `toUnit - 1` of
matrix `s - toPart`, and stop early as soon as the reduced system stops
achieving full rank within the matrix columns. -/
def iterLoop (baseMatrices : List GeneratingMatrix) (s nCols : ℕ) :
    List CompositionDelta → OriginMap → ProgressiveRowReducer → ℕ → ℕ × List RROp
  | [], _, st, lastIndex => (lastIndex, st.trace)
  | d :: ds, m, st, _ =>
      let ind := (m d.1).getD 0
      let m' : OriginMap := fun p =>
        if p = d.1 then none else if p = d.2 then some ind else m p
      let newRow := (baseMatrices.getD (s - d.2.1) default).row (d.2.2 - 1)
      let st' := st.replaceRow ind newRow
      let r := st'.smallestFullRank - 1
      if r = nCols then (nCols, st'.trace)
      else iterLoop baseMatrices s nCols ds m' st' r

/-- `iteration_on_k`: seed the reducer, return `nCols` if the seed already
fails to reach full rank within the columns, otherwise run the composition
loop.  The first component is the returned `smallestFullRankIndex`, the
second the ghost trace of reducer mutations. -/
def iteration_on_k (deltas : List CompositionDelta)
    (baseMatrices : List GeneratingMatrix) (k : ℕ) : ℕ × List RROp :=
  let nCols := (baseMatrices.getD 0 default).nCols
  let s := baseMatrices.length
  let st0 := seedReducer baseMatrices k
  let r0 := st0.smallestFullRank - 1
  if r0 = nCols then (nCols, st0.trace)
  else iterLoop baseMatrices s nCols deltas (seedOriginMap k s) st0 r0

/-! ## Multilevel t-value computation `computeTValue`

Embedded from `GaussMethod.cc`.  The per-`k` composition streams are
abstracted as `deltasFor`. -/

/-- Pivot bookkeeping for the `s = 1` branch: process the rows in order,
reducing each against the recorded pivot rows, assigning as pivot column
the first remaining one-bit and eliminating that column from the other
rows; entries are `(rowIndex, (pivotColumn, reducedRow))`. -/
def addRowPivots (state : List (ℕ × ℕ × Row)) (idx : ℕ) (row : Row) :
    List (ℕ × ℕ × Row) :=
  let reduced := state.foldl
    (fun r pcv => if r.getD pcv.2.1 false then xorRow r pcv.2.2 else r) row
  match reduced.findIdx? (fun b => b) with
  | none => state
  | some c =>
      (state.map (fun pcv =>
        if pcv.2.2.getD c false then (pcv.1, pcv.2.1, xorRow pcv.2.2 reduced)
        else pcv)) ++ [(idx, c, reduced)]

/-- Pivot positions of a matrix processed row by row (`getPivots`). -/
def getPivots (rows : List Row) : List (ℕ × ℕ × Row) :=
  (List.range rows.length).foldl (fun st i => addRowPivots st i (rows.getD i [])) []

/-- Number of pivots `(r, c)` with `max r c ≤ level`; the running `count`
of the `s = 1` branch after processing column `level`. -/
def pivotCountUpTo (M : GeneratingMatrix) (level : ℕ) : ℕ :=
  ((getPivots ((List.range M.nRows).map M.row)).filter
    (fun pcv => max pcv.1 pcv.2.1 ≤ level)).length

/-- The `s = 1` branch of the multilevel routine: per level `c` from
`mMin` to `nCols - 1`, the entry is `c + 1` minus the number of pivots
used up to that level. -/
def computeTValueSingleMatrix (M : GeneratingMatrix) (mMin : ℕ) : List ℕ :=
  (List.range' mMin (M.nCols - mMin)).map (fun c => c + 1 - pivotCountUpTo M c)

/-- Initial `result` contents after the pre-loop assignment (`msp` reads
`maxSubProj` at a global level index, with 0 beyond the vector). -/
def tvInitial (nCols s diff nLevel : ℕ) (msp : ℕ → ℕ) : ℕ → ℕ := fun j =>
  if diff ≤ j ∧ j < diff + nLevel then
    max (nCols - (nLevel - 1 - (j - diff)) - s + 1) (msp j)
  else msp j

/-- The in-place update performed by one effective iteration of the
descending `k` loop: levels `lo ≤ i < p` (at global index `i + diff`)
receive `max(nCols - (nLevel-1-i) - k, maxSubProj[i + diff])`. -/
def tvUpdate (nCols nLevel diff k p lo : ℕ) (msp res : ℕ → ℕ) : ℕ → ℕ :=
  fun j =>
    if diff + lo ≤ j ∧ j < diff + p then
      max (nCols - (nLevel - 1 - (j - diff)) - k) (msp j)
    else res j

/-- The descending `k` loop of the multilevel routine, with `res` the
current `result` (as a function of global level index) and `p` the
`previousIndSmallestInvertible` bound. -/
def tvLoop (deltasFor : ℕ → List CompositionDelta)
    (baseMatrices : List GeneratingMatrix) (s nCols mMin nLevel diff : ℕ)
    (msp : ℕ → ℕ) : ℕ → (ℕ → ℕ) → ℕ → (ℕ → ℕ)
  | 0, res, _ => res
  | k + 1, res, p =>
      if k + 1 < s then res
      else if (iteration_on_k (deltasFor (k + 1)) baseMatrices (k + 1)).1 = nCols then
        tvLoop deltasFor baseMatrices s nCols mMin nLevel diff msp k res p
      else if (iteration_on_k (deltasFor (k + 1)) baseMatrices (k + 1)).1 ≤ mMin then
        tvUpdate nCols nLevel diff (k + 1) p
          (if mMin < (iteration_on_k (deltasFor (k + 1)) baseMatrices (k + 1)).1 then
            (iteration_on_k (deltasFor (k + 1)) baseMatrices (k + 1)).1 - mMin
          else 0) msp res
      else
        tvLoop deltasFor baseMatrices s nCols mMin nLevel diff msp k
          (tvUpdate nCols nLevel diff (k + 1) p
            (if mMin < (iteration_on_k (deltasFor (k + 1)) baseMatrices (k + 1)).1 then
              (iteration_on_k (deltasFor (k + 1)) baseMatrices (k + 1)).1 - mMin
            else 0) msp res)
          ((iteration_on_k (deltasFor (k + 1)) baseMatrices (k + 1)).1 - mMin)

/-- Multilevel `computeTValue(baseMatrices, mMin, maxSubProj)`. -/
def computeTValue (deltasFor : ℕ → List CompositionDelta)
    (baseMatrices : List GeneratingMatrix) (mMin : ℕ)
    (maxSubProj : List ℕ) : List ℕ :=
  let nRows := (baseMatrices.getD 0 default).nRows
  let nCols := (baseMatrices.getD 0 default).nCols
  let s := baseMatrices.length
  let nLevel := maxSubProj.length
  if s = 1 then computeTValueSingleMatrix (baseMatrices.getD 0 default) mMin
  else
    let diff := if mMin < s - 1 then s - 1 - mMin else 0
    if mMin < s - 1 ∧ nLevel ≤ s - 1 - mMin then maxSubProj
    else
      let nLevelAdj := nLevel - diff
      let mMinAdj := if mMin < s - 1 then s - 1 else mMin
      let msp : ℕ → ℕ := fun j => maxSubProj.getD j 0
      let res0 := tvInitial nCols s diff nLevelAdj msp
      let kStart := nRows - maxSubProj.getLastD 0
      let final := tvLoop deltasFor baseMatrices s nCols mMinAdj nLevelAdj diff msp
        kStart res0 nLevelAdj
      (List.range nLevel).map final

/-- Unilevel `computeTValue(baseMatrices, maxSubProj)`: 0 for a single
matrix, otherwise the first entry of the multilevel computation at
`mMin = nCols - 1` with the singleton bound vector. -/
def computeTValueUnilevel (deltasFor : ℕ → List CompositionDelta)
    (baseMatrices : List GeneratingMatrix) (maxSubProj : ℕ) : ℕ :=
  if baseMatrices.length = 1 then 0
  else
    (computeTValue deltasFor baseMatrices ((baseMatrices.getD 0 default).nCols - 1)
      [maxSubProj]).getD 0 0

/-! ## Claims C1 and C2 about `iteration_on_k` -/

theorem addRow_foldl (l : List Row) :
    ∀ st : ProgressiveRowReducer,
      l.foldl ProgressiveRowReducer.addRow st =
        ⟨st.nCols, st.rows ++ l, st.trace ++ l.map RROp.addRowOp⟩ := by
  induction l with
  | nil => intro st; simp
  | cons r l ih =>
      intro st
      rw [List.foldl_cons, ih]
      simp [ProgressiveRowReducer.addRow]

theorem seedReducer_eq (baseMatrices : List GeneratingMatrix) (k : ℕ) :
    seedReducer baseMatrices k =
      ⟨(baseMatrices.getD 0 default).nCols, seedLayout baseMatrices k,
        (seedLayout baseMatrices k).map RROp.addRowOp⟩ := by
  unfold seedReducer ProgressiveRowReducer.create
  rw [addRow_foldl]
  simp

theorem seedLayout_length (baseMatrices : List GeneratingMatrix) (k : ℕ)
    (hs : 2 ≤ baseMatrices.length) (hk : baseMatrices.length ≤ k) :
    (seedLayout baseMatrices k).length = k := by
  unfold seedLayout
  simp only [List.length_append, List.length_map, List.length_range, List.length_range']
  omega

theorem iterLoop_trace (baseMatrices : List GeneratingMatrix) (s nCols : ℕ) :
    ∀ (ds : List CompositionDelta) (m : OriginMap) (st : ProgressiveRowReducer)
      (lastIndex : ℕ),
      ∃ rest : List RROp,
        (iterLoop baseMatrices s nCols ds m st lastIndex).2 = st.trace ++ rest ∧
          rest.length ≤ ds.length ∧
          ∀ op ∈ rest, ∃ i row, op = RROp.replaceRowOp i row := by
  intro ds
  induction ds with
  | nil =>
      intro m st lastIndex
      exact ⟨[], by simp [iterLoop]⟩
  | cons d ds ih =>
      intro m st lastIndex
      rw [iterLoop]
      set ind := (m d.1).getD 0 with hind
      set newRow := (baseMatrices.getD (s - d.2.1) default).row (d.2.2 - 1) with hrow
      by_cases hr : (st.replaceRow ind newRow).smallestFullRank - 1 = nCols
      · refine ⟨[RROp.replaceRowOp ind newRow], ?_, by simp, ?_⟩
        · simp only [hr, if_pos]
          simp [ProgressiveRowReducer.replaceRow]
        · intro op hop
          rcases List.mem_singleton.mp hop with rfl
          exact ⟨ind, newRow, rfl⟩
      · obtain ⟨rest, heq, hlen, hrep⟩ := ih
          (fun p => if p = d.1 then none else if p = d.2 then some ind else m p)
          (st.replaceRow ind newRow)
          ((st.replaceRow ind newRow).smallestFullRank - 1)
        refine ⟨RROp.replaceRowOp ind newRow :: rest, ?_, by simp; omega, ?_⟩
        · simp only [hr, if_neg, ite_false]
          rw [heq]
          simp [ProgressiveRowReducer.replaceRow]
        · intro op hop
          rcases List.mem_cons.mp hop with rfl | hop
          · exact ⟨ind, newRow, rfl⟩
          · exact hrep op hop

/-- C1: for at least two matrices and `s ≤ k ≤ R`, the routine seeds the
reducer with exactly `k` rows, laid out as the first `k-s+1` rows of
matrix `s-1` followed by the first row of each matrix `s-1-i` for
`i = 1, …, s-1` (the content of `seedLayout`), and afterwards every
reducer mutation is a single `replaceRow`, one per composition transition
actually consumed from the enumerator's stream. -/
theorem claim_C1_iteration_on_k_structure (deltas : List CompositionDelta)
    (baseMatrices : List GeneratingMatrix) (k : ℕ)
    (hs : 2 ≤ baseMatrices.length) (hk : baseMatrices.length ≤ k)
    (_hkR : k ≤ (baseMatrices.getD 0 default).nRows) :
    (seedLayout baseMatrices k).length = k ∧
      ∃ rest : List RROp,
        (iteration_on_k deltas baseMatrices k).2 =
            (seedLayout baseMatrices k).map RROp.addRowOp ++ rest ∧
          rest.length ≤ deltas.length ∧
          ∀ op ∈ rest, ∃ i row, op = RROp.replaceRowOp i row := by
  refine ⟨seedLayout_length baseMatrices k hs hk, ?_⟩
  unfold iteration_on_k
  by_cases h0 : (seedReducer baseMatrices k).smallestFullRank - 1 =
      (baseMatrices.getD 0 default).nCols
  · refine ⟨[], ?_, by simp, by simp⟩
    simp only [h0, if_pos]
    rw [seedReducer_eq]
    simp
  · obtain ⟨rest, heq, hlen, hrep⟩ := iterLoop_trace baseMatrices
      baseMatrices.length (baseMatrices.getD 0 default).nCols deltas
      (seedOriginMap k baseMatrices.length) (seedReducer baseMatrices k)
      ((seedReducer baseMatrices k).smallestFullRank - 1)
    refine ⟨rest, ?_, hlen, hrep⟩
    simp only [h0, if_neg, ite_false]
    rw [heq, seedReducer_eq]

/-- C1 witness at two 2-by-2 matrices, `k = 2` and an empty delta stream. -/
theorem claim_C1_iteration_on_k_structure_witness :
    (seedLayout [⟨2, 2, [[true, false], [false, true]]⟩,
        ⟨2, 2, [[true, true], [false, true]]⟩] 2).length = 2 ∧
      ∃ rest : List RROp,
        (iteration_on_k [] [⟨2, 2, [[true, false], [false, true]]⟩,
              ⟨2, 2, [[true, true], [false, true]]⟩] 2).2 =
            (seedLayout [⟨2, 2, [[true, false], [false, true]]⟩,
              ⟨2, 2, [[true, true], [false, true]]⟩] 2).map RROp.addRowOp ++ rest ∧
          rest.length ≤ ([] : List CompositionDelta).length ∧
          ∀ op ∈ rest, ∃ i row, op = RROp.replaceRowOp i row :=
  claim_C1_iteration_on_k_structure [] _ 2 (by decide) (by decide) (by decide)

/-- C2: when already the seeded reducer has `smallestFullRank - 1` equal to
`nCols`, `iteration_on_k` returns `nCols` before any composition
iteration; and for two or more matrices the unilevel wrapper is exactly
the first entry of the multilevel computation at `mMin = nCols - 1`, whose
entries subtract the achieved `k` values from `nCols`. -/
theorem claim_C2_seed_full_rank_returns_nCols (deltas : List CompositionDelta)
    (baseMatrices : List GeneratingMatrix) (k : ℕ)
    (h : (seedReducer baseMatrices k).smallestFullRank - 1 =
      (baseMatrices.getD 0 default).nCols) :
    (iteration_on_k deltas baseMatrices k).1 = (baseMatrices.getD 0 default).nCols ∧
      ∀ (deltasFor : ℕ → List CompositionDelta) (maxSubProj : ℕ),
        2 ≤ baseMatrices.length →
          computeTValueUnilevel deltasFor baseMatrices maxSubProj =
            (computeTValue deltasFor baseMatrices
              ((baseMatrices.getD 0 default).nCols - 1) [maxSubProj]).getD 0 0 := by
  constructor
  · unfold iteration_on_k
    simp only [h, if_pos]
  · intro deltasFor maxSubProj hs
    unfold computeTValueUnilevel
    rw [if_neg (by omega)]

/-- C2 witness: two 2-by-2 zero matrices never reach full rank, so the
seed's `smallestFullRank - 1` is `nCols` and the routine returns `nCols`. -/
theorem claim_C2_seed_full_rank_returns_nCols_witness :
    (iteration_on_k [] [⟨2, 2, [[false, false], [false, false]]⟩,
        ⟨2, 2, [[false, false], [false, false]]⟩] 2).1 = 2 ∧
      computeTValueUnilevel (fun _ => []) [⟨2, 2, [[false, false], [false, false]]⟩,
          ⟨2, 2, [[false, false], [false, false]]⟩] 0 =
        (computeTValue (fun _ => []) [⟨2, 2, [[false, false], [false, false]]⟩,
          ⟨2, 2, [[false, false], [false, false]]⟩] 1 [0]).getD 0 0 := by
  have h := claim_C2_seed_full_rank_returns_nCols []
    [⟨2, 2, [[false, false], [false, false]]⟩,
      ⟨2, 2, [[false, false], [false, false]]⟩] 2 (by decide)
  exact ⟨h.1, h.2 (fun _ => []) 0 (by decide)⟩

/-! ## Claim C4 about the `s = 1` case -/

/-- C4 counterexample: the 1-by-1 zero matrix.  The multilevel overload
computes the per-level value from pivot positions and returns `[1]`, not
the all-zero vector the claim asserts. -/
theorem claim_C4_counterexample :
    computeTValue (fun _ => []) [⟨1, 1, [[false]]⟩] 0 [0] = [1] ∧
      computeTValue (fun _ => []) [⟨1, 1, [[false]]⟩] 0 [0] ≠ [0] :=
  ⟨rfl, by decide⟩

/-- Each call to `addRowPivots` either keeps the pivot list or appends
one entry whose row index is the processed one; back-elimination never
touches the recorded row indices. -/
theorem addRowPivots_firsts (state : List (ℕ × ℕ × Row)) (idx : ℕ) (row : Row) :
    (addRowPivots state idx row).map (fun e => e.1) =
        state.map (fun e => e.1) ∨
      (addRowPivots state idx row).map (fun e => e.1) =
        state.map (fun e => e.1) ++ [idx] := by
  simp only [addRowPivots]
  rcases h : (state.foldl
      (fun r pcv => if r.getD pcv.2.1 false then xorRow r pcv.2.2 else r)
      row).findIdx? (fun b => b) with _ | c
  · left
    rw [h]
  · right
    rw [h, List.map_append, List.map_map]
    congr 1
    apply List.map_congr_left
    intro e _
    dsimp only [Function.comp]
    split <;> rfl

/-- Folding `addRowPivots` over strictly increasing row indices keeps the
recorded pivot row indices strictly increasing. -/
theorem foldPivots_pairwise (f : ℕ → Row) :
    ∀ l : List ℕ, l.Pairwise (· < ·) →
      ∀ st : List (ℕ × ℕ × Row),
        (st.map (fun e => e.1)).Pairwise (· < ·) →
        (∀ x ∈ st.map (fun e => e.1), ∀ i ∈ l, x < i) →
        ((l.foldl (fun st i => addRowPivots st i (f i)) st).map
          (fun e => e.1)).Pairwise (· < ·) := by
  intro l
  induction l with
  | nil =>
      intro _ st hp _
      simpa using hp
  | cons i l ih =>
      intro hpl st hp hb
      rw [List.foldl_cons]
      have hpl' := List.pairwise_cons.mp hpl
      rcases addRowPivots_firsts st i (f i) with he | he
      · apply ih hpl'.2
        · rw [he]; exact hp
        · rw [he]
          intro x hx j hj
          exact hb x hx j (List.mem_cons_of_mem i hj)
      · apply ih hpl'.2
        · rw [he]
          apply List.pairwise_append.mpr
          refine ⟨hp, List.pairwise_singleton _ _, ?_⟩
          intro x hx y hy
          rw [List.mem_singleton] at hy
          rw [hy]
          exact hb x hx i (List.mem_cons_self i l)
        · rw [he]
          intro x hx j hj
          rcases List.mem_append.mp hx with hx | hx
          · exact hb x hx j (List.mem_cons_of_mem i hj)
          · rw [List.mem_singleton] at hx
            rw [hx]
            exact hpl'.1 j hj

theorem getPivots_firsts_pairwise (rows : List Row) :
    ((getPivots rows).map (fun e => e.1)).Pairwise (· < ·) := by
  unfold getPivots
  exact foldPivots_pairwise (fun i => rows.getD i []) (List.range rows.length)
    (List.pairwise_lt_range _) [] (by simp) (by simp)

/-- At most `c + 1` pivots can have both coordinates at most `c`, since
their row indices are pairwise distinct and bounded by `c`. -/
theorem pivotCountUpTo_le (M : GeneratingMatrix) (c : ℕ) :
    pivotCountUpTo M c ≤ c + 1 := by
  unfold pivotCountUpTo
  set pl := (getPivots ((List.range M.nRows).map M.row)).filter
    (fun pcv => max pcv.1 pcv.2.1 ≤ c) with hpl
  have hpair : (pl.map (fun e => e.1)).Pairwise (· < ·) :=
    (getPivots_firsts_pairwise _).sublist
      (List.Sublist.map _ (List.filter_sublist _))
  have hnd : (pl.map (fun e => e.1)).Nodup :=
    hpair.imp (fun hab => Nat.ne_of_lt hab)
  have hsub : List.Subperm (pl.map (fun e => e.1)) (List.range (c + 1)) := by
    apply hnd.subperm
    intro x hx
    obtain ⟨e, he, rfl⟩ := List.mem_map.mp hx
    have hmf := List.mem_filter.mp he
    have hle : max e.1 e.2.1 ≤ c := by simpa using hmf.2
    exact List.mem_range.mpr (by omega)
  calc pl.length = (pl.map (fun e => e.1)).length := (List.length_map _ _).symm
    _ ≤ (List.range (c + 1)).length := hsub.length_le
    _ = c + 1 := List.length_range _

theorem getD_map_range'_one (f : ℕ → ℕ) (s n i : ℕ) (hi : i < n) :
    ((List.range' s n).map f).getD i 0 = f (s + i) := by
  rw [List.getD_eq_getElem?_getD, List.getElem?_map, List.getElem?_range' s 1 hi]
  simp

/-- C4 (amended): for a single matrix the unilevel overload returns 0
unconditionally; the multilevel overload returns, for each level
`c = mMin, …, nCols - 1`, the value `c + 1` minus the number of pivots
`(r, col)` with `max r col ≤ c`; that vector is all zeros exactly when
every such level has the full pivot count `c + 1` (as the identity matrix
does); and every level with a deficient pivot count — as happens for
singular matrices — yields a strictly positive entry. -/
theorem claim_C4_singleMatrix (deltasFor : ℕ → List CompositionDelta)
    (M : GeneratingMatrix) (mMin : ℕ) (maxSubProj : List ℕ) (m0 : ℕ) :
    computeTValueUnilevel deltasFor [M] m0 = 0 ∧
      computeTValue deltasFor [M] mMin maxSubProj =
        (List.range' mMin (M.nCols - mMin)).map
          (fun c => c + 1 - pivotCountUpTo M c) ∧
      ((∀ t ∈ computeTValue deltasFor [M] mMin maxSubProj, t = 0) ↔
        ∀ c, mMin ≤ c → c < M.nCols → pivotCountUpTo M c = c + 1) ∧
      (∀ c, mMin ≤ c → c < M.nCols → pivotCountUpTo M c < c + 1 →
        0 < (computeTValue deltasFor [M] mMin maxSubProj).getD (c - mMin) 0) := by
  have hred : computeTValue deltasFor [M] mMin maxSubProj =
      (List.range' mMin (M.nCols - mMin)).map
        (fun c => c + 1 - pivotCountUpTo M c) := rfl
  refine ⟨by simp [computeTValueUnilevel], hred, ⟨?_, ?_⟩, ?_⟩
  · intro h c h1 h2
    have hmem : (c + 1 - pivotCountUpTo M c) ∈
        computeTValue deltasFor [M] mMin maxSubProj := by
      rw [hred]
      exact List.mem_map.mpr ⟨c, List.mem_range'_1.mpr ⟨h1, by omega⟩, rfl⟩
    have h0 := h _ hmem
    have hle := pivotCountUpTo_le M c
    omega
  · intro h t ht
    rw [hred] at ht
    obtain ⟨c, hc, hval⟩ := List.mem_map.mp ht
    have hb := List.mem_range'_1.mp hc
    have hfc := h c (by omega) (by omega)
    omega
  · intro c h1 h2 h3
    rw [hred, getD_map_range'_one _ _ _ _ (by omega)]
    have hidx : mMin + (c - mMin) = c := by omega
    rw [hidx]
    show 0 < c + 1 - pivotCountUpTo M c
    omega

/-! ## Claim C3: invariants of the multilevel t-sequence

The central facts are: (a) whenever `iteration_on_k` returns a value
other than `nCols`, that value is at least `k - 1` and below `nCols`
(full rank of `k` rows needs at least `k` columns); (b) from this, the
descending `k` loop only ever writes `max`-clamped values whose raw parts
move by at most one between adjacent levels. -/

theorem sfri_cases (st : ProgressiveRowReducer) (hk : 1 ≤ st.rows.length) :
    st.smallestFullRank - 1 = st.nCols ∨
      (st.rows.length ≤ st.smallestFullRank - 1 + 1 ∧
        st.smallestFullRank - 1 < st.nCols) := by
  rcases smallestFullRank_spec st with h | ⟨h1, _⟩
  · left; omega
  · right
    have h3 := smallestFullRank_ge_rows st h1
    omega

theorem iterLoop_result (baseMatrices : List GeneratingMatrix) (s nCols k : ℕ)
    (hk : 1 ≤ k) :
    ∀ (ds : List CompositionDelta) (m : OriginMap) (st : ProgressiveRowReducer)
      (lastIndex : ℕ),
      st.nCols = nCols → st.rows.length = k →
      (lastIndex = nCols ∨ (k ≤ lastIndex + 1 ∧ lastIndex < nCols)) →
      (iterLoop baseMatrices s nCols ds m st lastIndex).1 = nCols ∨
        (k ≤ (iterLoop baseMatrices s nCols ds m st lastIndex).1 + 1 ∧
          (iterLoop baseMatrices s nCols ds m st lastIndex).1 < nCols) := by
  intro ds
  induction ds with
  | nil =>
      intro m st lastIndex _ _ hlast
      simpa [iterLoop] using hlast
  | cons d ds ih =>
      intro m st lastIndex hstc hstl hlast
      rw [iterLoop]
      set ind := (m d.1).getD 0 with hind
      set newRow := (baseMatrices.getD (s - d.2.1) default).row (d.2.2 - 1) with hrow
      by_cases hr : (st.replaceRow ind newRow).smallestFullRank - 1 = nCols
      · rw [if_pos hr]
        left; rfl
      · rw [if_neg hr]
        apply ih
        · simpa [ProgressiveRowReducer.replaceRow] using hstc
        · simpa [ProgressiveRowReducer.replaceRow] using hstl
        · have h1 : 1 ≤ (st.replaceRow ind newRow).rows.length := by
            simp only [ProgressiveRowReducer.replaceRow, List.length_set]
            omega
          have := sfri_cases (st.replaceRow ind newRow) h1
          have hc : (st.replaceRow ind newRow).nCols = nCols := by
            simpa [ProgressiveRowReducer.replaceRow] using hstc
          have hl : (st.replaceRow ind newRow).rows.length = k := by
            simpa [ProgressiveRowReducer.replaceRow, List.length_set] using hstl
          rw [hc, hl] at this
          rcases this with h | h
          · exact absurd h hr
          · right; exact h

theorem iteration_on_k_result (deltas : List CompositionDelta)
    (baseMatrices : List GeneratingMatrix) (k : ℕ)
    (hs : 2 ≤ baseMatrices.length) (hk : baseMatrices.length ≤ k) :
    (iteration_on_k deltas baseMatrices k).1 = (baseMatrices.getD 0 default).nCols ∨
      (k ≤ (iteration_on_k deltas baseMatrices k).1 + 1 ∧
        (iteration_on_k deltas baseMatrices k).1 <
          (baseMatrices.getD 0 default).nCols) := by
  unfold iteration_on_k
  by_cases h0 : (seedReducer baseMatrices k).smallestFullRank - 1 =
      (baseMatrices.getD 0 default).nCols
  · rw [if_pos h0]
    left; rfl
  · rw [if_neg h0]
    apply iterLoop_result baseMatrices baseMatrices.length
      (baseMatrices.getD 0 default).nCols k (by omega)
    · rw [seedReducer_eq]
    · rw [seedReducer_eq]
      exact seedLayout_length baseMatrices k hs hk
    · have h1 : 1 ≤ (seedReducer baseMatrices k).rows.length := by
        rw [seedReducer_eq]
        rw [seedLayout_length baseMatrices k hs hk]
        omega
      have := sfri_cases (seedReducer baseMatrices k) h1
      have hc : (seedReducer baseMatrices k).nCols =
          (baseMatrices.getD 0 default).nCols := by
        rw [seedReducer_eq]
      have hl : (seedReducer baseMatrices k).rows.length = k := by
        rw [seedReducer_eq]
        exact seedLayout_length baseMatrices k hs hk
      rw [hc, hl] at this
      rcases this with h | h
      · exact absurd h h0
      · right; exact h

/-- The value `iteration_on_k` returns for level-tightening at a given `k`. -/
def riter (deltasFor : ℕ → List CompositionDelta)
    (baseMatrices : List GeneratingMatrix) (k : ℕ) : ℕ :=
  (iteration_on_k (deltasFor k) baseMatrices k).1

/-- The conclusion of claim C3 for a level function: entries below `diff`
are the raw bounds, entries in the window dominate their bounds, and
adjacent entries grow by at most one. -/
def tvGood (diff nl : ℕ) (msp res : ℕ → ℕ) : Prop :=
  (∀ j, j < diff → res j = msp j) ∧
    (∀ j, diff ≤ j → j < diff + nl → msp j ≤ res j) ∧
    (∀ j, j + 1 < diff + nl → res (j + 1) ≤ res j + 1)

theorem tvInitial_in (nCols s diff nl mm : ℕ) (msp : ℕ → ℕ) (j : ℕ)
    (hnc : nCols = mm + nl) (hmm : s - 1 ≤ mm) (hs : 1 ≤ s)
    (h1 : diff ≤ j) (h2 : j < diff + nl) :
    tvInitial nCols s diff nl msp j = max (mm + (j - diff) + 2 - s) (msp j) := by
  unfold tvInitial
  rw [if_pos ⟨h1, h2⟩]
  congr 1
  omega

theorem tvInitial_out (nCols s diff nl : ℕ) (msp : ℕ → ℕ) (j : ℕ)
    (h : ¬(diff ≤ j ∧ j < diff + nl)) :
    tvInitial nCols s diff nl msp j = msp j := by
  unfold tvInitial
  rw [if_neg h]

/-- One effective `k`-loop update preserves the C3 goodness invariant,
provided the untouched lower region is still in its initial state, the
upper region was set with strictly larger `k`, and the written window
starts either at `r - mMin` (when `r > mMin`) or at 0 (break case). -/
theorem tvUpdate_good (s NC mm nl diff k r p lo : ℕ) (msp res : ℕ → ℕ)
    (hnc : NC = mm + nl)
    (_hmm : s - 1 ≤ mm)
    (hdiff : diff = 0 ∨ mm = s - 1)
    (hmspMono : ∀ j, j + 1 < diff + nl → msp (j + 1) ≤ msp j + 1)
    (hgood : tvGood diff nl msp res)
    (hB3 : ∀ i, p ≤ i → i < nl →
      res (i + diff) ≤ max (mm + i + 1 - (k + 2)) (msp (i + diff)))
    (hB4 : ∀ i, i < p → i < nl →
      res (i + diff) = max (mm + i + 2 - s) (msp (i + diff)))
    (_hpnl : p ≤ nl)
    (hks : s ≤ k + 1)
    (hrk : k ≤ r) (hrlt : r < NC)
    (hlo : (mm < r ∧ lo = r - mm) ∨ (r ≤ mm ∧ lo = 0))
    (_hlop : lo ≤ p) :
    tvGood diff nl msp (tvUpdate NC nl diff (k + 1) p lo msp res) := by
  obtain ⟨hgA, hgB, hgC⟩ := hgood
  refine ⟨?_, ?_, ?_⟩
  · intro j hj
    unfold tvUpdate
    rw [if_neg (by omega)]
    exact hgA j hj
  · intro j hj1 hj2
    unfold tvUpdate
    by_cases hc : diff + lo ≤ j ∧ j < diff + p
    · rw [if_pos hc]
      exact le_max_right _ _
    · rw [if_neg hc]
      exact hgB j hj1 hj2
  · intro j hj
    unfold tvUpdate
    by_cases hc1 : diff + lo ≤ j + 1 ∧ j + 1 < diff + p
    · rw [if_pos hc1]
      by_cases hc0 : diff + lo ≤ j ∧ j < diff + p
      · rw [if_pos hc0]
        have hm := hmspMono j hj
        omega
      · rw [if_neg hc0]
        have hj1 : j + 1 = diff + lo := by omega
        rcases hlo with ⟨hmr, hloe⟩ | ⟨hmr, hloe⟩
        · have hjd : diff ≤ j := by omega
          have hb4 := hB4 (j - diff) (by omega) (by omega)
          have hidx : j - diff + diff = j := by omega
          rw [hidx] at hb4
          have hm := hmspMono j hj
          omega
        · rcases hdiff with h0 | hmmEq
          · omega
          · have hga := hgA j (by omega)
            have hm := hmspMono j hj
            omega
    · rw [if_neg hc1]
      by_cases hc0 : diff + lo ≤ j ∧ j < diff + p
      · rw [if_pos hc0]
        have hj1 : j + 1 = diff + p := by omega
        have hpn : p < nl := by omega
        have hb3 := hB3 p (le_refl p) hpn
        have hidx : p + diff = j + 1 := by omega
        rw [hidx] at hb3
        have hm := hmspMono j hj
        omega
      · rw [if_neg hc0]
        exact hgC j hj

/-- Goodness of the final level function produced by the descending `k`
loop, given the entry invariants: the window above
`previousIndSmallestInvertible` was set with strictly larger `k` values,
the window below is still initial, and the `iteration_on_k` results are
monotone in `k` wherever they are not the skip value `nCols`. -/
theorem tvLoop_inv (deltasFor : ℕ → List CompositionDelta)
    (baseMatrices : List GeneratingMatrix) (mm nl diff : ℕ) (msp : ℕ → ℕ)
    (hs : 2 ≤ baseMatrices.length)
    (hnc : (baseMatrices.getD 0 default).nCols = mm + nl)
    (hmm : baseMatrices.length - 1 ≤ mm)
    (hdiff : diff = 0 ∨ mm = baseMatrices.length - 1)
    (hmspMono : ∀ j, j + 1 < diff + nl → msp (j + 1) ≤ msp j + 1)
    (hiter : ∀ j k, baseMatrices.length ≤ j → j ≤ k →
      riter deltasFor baseMatrices j ≠ (baseMatrices.getD 0 default).nCols →
      riter deltasFor baseMatrices k ≠ (baseMatrices.getD 0 default).nCols →
      riter deltasFor baseMatrices j ≤ riter deltasFor baseMatrices k) :
    ∀ (kk : ℕ) (res : ℕ → ℕ) (p : ℕ),
      tvGood diff nl msp res →
      (∀ i, p ≤ i → i < nl →
        res (i + diff) ≤ max (mm + i + 1 - (kk + 1)) (msp (i + diff))) →
      (∀ i, i < p → i < nl →
        res (i + diff) = max (mm + i + 2 - baseMatrices.length) (msp (i + diff))) →
      1 ≤ p → p ≤ nl →
      (p = nl ∨ ∃ kp, kk < kp ∧ baseMatrices.length ≤ kp ∧
        riter deltasFor baseMatrices kp ≠ (baseMatrices.getD 0 default).nCols ∧
        mm < riter deltasFor baseMatrices kp ∧
        p = riter deltasFor baseMatrices kp - mm) →
      tvGood diff nl msp
        (tvLoop deltasFor baseMatrices baseMatrices.length
          (baseMatrices.getD 0 default).nCols mm nl diff msp kk res p) := by
  intro kk
  induction kk with
  | zero =>
      intro res p hgood _ _ _ _ _
      exact hgood
  | succ k ih =>
      intro res p hgood hB3 hB4 hp1 hpnl hB6
      rw [tvLoop]
      by_cases hks : k + 1 < baseMatrices.length
      · rw [if_pos hks]
        exact hgood
      · rw [if_neg hks]
        by_cases hrnc : (iteration_on_k (deltasFor (k + 1)) baseMatrices (k + 1)).1 =
            (baseMatrices.getD 0 default).nCols
        · rw [if_pos hrnc]
          refine ih res p hgood ?_ hB4 hp1 hpnl ?_
          · intro i hpi hinl
            have h := hB3 i hpi hinl
            omega
          · rcases hB6 with h | ⟨kp, h1, h2, h3, h4, h5⟩
            · exact Or.inl h
            · exact Or.inr ⟨kp, by omega, h2, h3, h4, h5⟩
        · rw [if_neg hrnc]
          have hres := iteration_on_k_result (deltasFor (k + 1)) baseMatrices (k + 1)
            hs (by omega)
          have hrk : k ≤ (iteration_on_k (deltasFor (k + 1)) baseMatrices (k + 1)).1 := by
            rcases hres with h | ⟨h1, _⟩
            · exact absurd h hrnc
            · omega
          have hrlt : (iteration_on_k (deltasFor (k + 1)) baseMatrices (k + 1)).1 <
              (baseMatrices.getD 0 default).nCols := by
            rcases hres with h | ⟨_, h2⟩
            · exact absurd h hrnc
            · exact h2
          set r := (iteration_on_k (deltasFor (k + 1)) baseMatrices (k + 1)).1 with hrdef
          have hriter : riter deltasFor baseMatrices (k + 1) = r := rfl
          have hlop : (if mm < r then r - mm else 0) ≤ p := by
            rcases hB6 with hpe | ⟨kp, h1, h2, h3, h4, h5⟩
            · by_cases hmr : mm < r
              · rw [if_pos hmr]; omega
              · rw [if_neg hmr]; omega
            · have hr5 : r ≤ riter deltasFor baseMatrices kp := by
                rw [← hriter]
                exact hiter (k + 1) kp (by omega) (by omega)
                  (by rw [hriter]; exact hrnc) h3
              by_cases hmr : mm < r
              · rw [if_pos hmr]; omega
              · rw [if_neg hmr]; omega
          by_cases hbreak : r ≤ mm
          · rw [if_pos hbreak]
            have hlo0 : (if mm < r then r - mm else 0) = 0 := by
              rw [if_neg (by omega)]
            rw [hlo0]
            exact tvUpdate_good baseMatrices.length (baseMatrices.getD 0 default).nCols
              mm nl diff k r p 0 msp res hnc hmm hdiff hmspMono ⟨hgood.1, hgood.2.1, hgood.2.2⟩
              hB3 hB4 hpnl (by omega) hrk hrlt (Or.inr ⟨hbreak, rfl⟩) (by omega)
          · rw [if_neg hbreak]
            have hmr : mm < r := by omega
            have hloe : (if mm < r then r - mm else 0) = r - mm := if_pos hmr
            rw [hloe]
            apply ih
            · exact tvUpdate_good baseMatrices.length (baseMatrices.getD 0 default).nCols
                mm nl diff k r p (r - mm) msp res hnc hmm hdiff hmspMono
                ⟨hgood.1, hgood.2.1, hgood.2.2⟩ hB3 hB4 hpnl (by omega) hrk hrlt
                (Or.inl ⟨hmr, rfl⟩) (by rw [hloe] at hlop; exact hlop)
            · intro i h1 h2
              unfold tvUpdate
              by_cases hc : diff + (r - mm) ≤ i + diff ∧ i + diff < diff + p
              · rw [if_pos hc]
                omega
              · rw [if_neg hc]
                have h3 := hB3 i (by omega) h2
                omega
            · intro i h1 h2
              unfold tvUpdate
              rw [if_neg (by omega)]
              exact hB4 i (by omega) h2
            · omega
            · omega
            · refine Or.inr ⟨k + 1, by omega, by omega, ?_, ?_, ?_⟩
              · rw [hriter]; exact hrnc
              · rw [hriter]; exact hmr
              · rw [hriter]

/-- The initial `result` assignment already satisfies the goodness
invariant. -/
theorem tvInitial_good (s NC mm nl diff : ℕ) (msp : ℕ → ℕ)
    (hnc : NC = mm + nl) (hmm : s - 1 ≤ mm) (hs1 : 1 ≤ s)
    (hdiff : diff = 0 ∨ mm = s - 1)
    (hmspMono : ∀ j, j + 1 < diff + nl → msp (j + 1) ≤ msp j + 1) :
    tvGood diff nl msp (tvInitial NC s diff nl msp) := by
  refine ⟨?_, ?_, ?_⟩
  · intro j hj
    exact tvInitial_out NC s diff nl msp j (by omega)
  · intro j h1 h2
    rw [tvInitial_in NC s diff nl mm msp j hnc hmm hs1 h1 h2]
    exact le_max_right _ _
  · intro j hj
    by_cases h1 : diff ≤ j
    · rw [tvInitial_in NC s diff nl mm msp j hnc hmm hs1 h1 (by omega),
        tvInitial_in NC s diff nl mm msp (j + 1) hnc hmm hs1 (by omega) hj]
      have hm := hmspMono j hj
      omega
    · by_cases h2 : diff ≤ j + 1
      · rw [tvInitial_out NC s diff nl msp j (by omega),
          tvInitial_in NC s diff nl mm msp (j + 1) hnc hmm hs1 h2 hj]
        have hm := hmspMono j hj
        rcases hdiff with h0 | hmmEq
        · omega
        · omega
      · rw [tvInitial_out NC s diff nl msp j (by omega),
          tvInitial_out NC s diff nl msp (j + 1) (by omega)]
        exact hmspMono j hj

/-- The initial `result` window is exactly the `k = s - 1` clamped form. -/
theorem tvInitial_window (s NC mm nl diff : ℕ) (msp : ℕ → ℕ)
    (hnc : NC = mm + nl) (hmm : s - 1 ≤ mm) (hs1 : 1 ≤ s) :
    ∀ i, i < nl →
      tvInitial NC s diff nl msp (i + diff) =
        max (mm + i + 2 - s) (msp (i + diff)) := by
  intro i hi
  rw [tvInitial_in NC s diff nl mm msp (i + diff) hnc hmm hs1 (by omega) (by omega),
    Nat.add_sub_cancel]

theorem getD_map_range (f : ℕ → ℕ) (n i : ℕ) (hi : i < n) :
    ((List.range n).map f).getD i 0 = f i := by
  rw [List.getD_eq_getElem?_getD, List.getElem?_map, List.getElem?_range hi]
  rfl

/-- C3 (amended): for s at least 2, a compatible bound vector (adjacent
bounds rising by at most one), levels spanning `mMin + 1 … nCols`, a bound
vector whose last entry does not exceed `nRows` (so the C++ unsigned loop
bound does not wrap), and `iteration_on_k` results that are monotone in
`k` where they are not the skip value `nCols` (true of the real reducer,
since dropping a row from a full-rank system keeps it full rank), the
multilevel result has one entry per input level, dominates `maxSubProj`
pointwise (hence is non-negative), and adjacent entries grow by at most
one. -/
theorem claim_C3_multilevel_invariants (deltasFor : ℕ → List CompositionDelta)
    (baseMatrices : List GeneratingMatrix) (mMin : ℕ) (maxSubProj : List ℕ)
    (hs : 2 ≤ baseMatrices.length)
    (hlen : maxSubProj.length + mMin = (baseMatrices.getD 0 default).nCols)
    (hne : 1 ≤ maxSubProj.length)
    (hmono : ∀ i, i + 1 < maxSubProj.length →
      maxSubProj.getD (i + 1) 0 ≤ maxSubProj.getD i 0 + 1)
    (_hback : maxSubProj.getLastD 0 ≤ (baseMatrices.getD 0 default).nRows)
    (hiter : ∀ j k, baseMatrices.length ≤ j → j ≤ k →
      riter deltasFor baseMatrices j ≠ (baseMatrices.getD 0 default).nCols →
      riter deltasFor baseMatrices k ≠ (baseMatrices.getD 0 default).nCols →
      riter deltasFor baseMatrices j ≤ riter deltasFor baseMatrices k) :
    (computeTValue deltasFor baseMatrices mMin maxSubProj).length =
        maxSubProj.length ∧
      (∀ i, i < maxSubProj.length →
        maxSubProj.getD i 0 ≤
          (computeTValue deltasFor baseMatrices mMin maxSubProj).getD i 0) ∧
      (∀ i, i + 1 < maxSubProj.length →
        (computeTValue deltasFor baseMatrices mMin maxSubProj).getD (i + 1) 0 ≤
          (computeTValue deltasFor baseMatrices mMin maxSubProj).getD i 0 + 1) := by
  by_cases hearly : mMin < baseMatrices.length - 1 ∧
      maxSubProj.length ≤ baseMatrices.length - 1 - mMin
  · have hres : computeTValue deltasFor baseMatrices mMin maxSubProj = maxSubProj := by
      simp only [computeTValue]
      rw [if_neg (by omega), if_pos hearly]
    rw [hres]
    exact ⟨rfl, fun i _ => le_refl _, hmono⟩
  · have hdiffcase : (if mMin < baseMatrices.length - 1
        then baseMatrices.length - 1 - mMin else 0) = 0 ∨
        (if mMin < baseMatrices.length - 1 then baseMatrices.length - 1 else mMin) =
          baseMatrices.length - 1 := by
      by_cases hlt : mMin < baseMatrices.length - 1
      · right; rw [if_pos hlt]
      · left; rw [if_neg hlt]
    set diff := if mMin < baseMatrices.length - 1
      then baseMatrices.length - 1 - mMin else 0 with hdiffdef
    set mmAdj := if mMin < baseMatrices.length - 1
      then baseMatrices.length - 1 else mMin with hmmdef
    have hdiffbound : diff < maxSubProj.length := by
      by_cases hlt : mMin < baseMatrices.length - 1
      · rw [hdiffdef, if_pos hlt]
        omega
      · rw [hdiffdef, if_neg hlt]
        omega
    have hmmval : baseMatrices.length - 1 ≤ mmAdj ∧ mmAdj + (maxSubProj.length - diff) =
        (baseMatrices.getD 0 default).nCols := by
      by_cases hlt : mMin < baseMatrices.length - 1
      · rw [hmmdef, if_pos hlt, hdiffdef, if_pos hlt]
        omega
      · rw [hmmdef, if_neg hlt, hdiffdef, if_neg hlt]
        omega
    have hres : computeTValue deltasFor baseMatrices mMin maxSubProj =
        (List.range maxSubProj.length).map
          (tvLoop deltasFor baseMatrices baseMatrices.length
            (baseMatrices.getD 0 default).nCols mmAdj (maxSubProj.length - diff) diff
            (fun j => maxSubProj.getD j 0)
            ((baseMatrices.getD 0 default).nRows - maxSubProj.getLastD 0)
            (tvInitial (baseMatrices.getD 0 default).nCols baseMatrices.length diff
              (maxSubProj.length - diff) (fun j => maxSubProj.getD j 0))
            (maxSubProj.length - diff)) := by
      simp only [computeTValue]
      rw [if_neg (by omega), if_neg hearly]
    have hmspMono : ∀ j, j + 1 < diff + (maxSubProj.length - diff) →
        (fun j => maxSubProj.getD j 0) (j + 1) ≤ (fun j => maxSubProj.getD j 0) j + 1 := by
      intro j hj
      exact hmono j (by omega)
    have hgood0 := tvInitial_good baseMatrices.length (baseMatrices.getD 0 default).nCols
      mmAdj (maxSubProj.length - diff) diff (fun j => maxSubProj.getD j 0)
      (by omega) hmmval.1 (by omega)
      (by
        rcases hdiffcase with h | h
        · exact Or.inl h
        · exact Or.inr h)
      hmspMono
    have hwin := tvInitial_window baseMatrices.length (baseMatrices.getD 0 default).nCols
      mmAdj (maxSubProj.length - diff) diff (fun j => maxSubProj.getD j 0)
      (by omega) hmmval.1 (by omega)
    obtain ⟨gA, gB, gC⟩ := tvLoop_inv deltasFor baseMatrices mmAdj
      (maxSubProj.length - diff) diff (fun j => maxSubProj.getD j 0)
      hs (by omega) hmmval.1
      (by
        rcases hdiffcase with h | h
        · exact Or.inl h
        · exact Or.inr h)
      hmspMono hiter
      ((baseMatrices.getD 0 default).nRows - maxSubProj.getLastD 0)
      (tvInitial (baseMatrices.getD 0 default).nCols baseMatrices.length diff
        (maxSubProj.length - diff) (fun j => maxSubProj.getD j 0))
      (maxSubProj.length - diff)
      hgood0
      (by intro i h1 h2; omega)
      (by intro i h1 h2; exact hwin i h2)
      (by omega) (le_refl _) (Or.inl rfl)
    refine ⟨by rw [hres]; simp, ?_, ?_⟩
    · intro i hi
      rw [hres, getD_map_range _ _ _ hi]
      by_cases hid : i < diff
      · rw [gA i hid]
      · exact gB i (by omega) (by omega)
    · intro i hi
      rw [hres, getD_map_range _ _ _ (by omega), getD_map_range _ _ _ (by omega)]
      exact gC i (by omega)

/-- C3 counterexample: two 3-by-3 zero matrices with `mMin = 1` and bound
vector `[0, 3]`.  Every `k` is skipped (the zero rows never reach full
rank), so the result keeps the clamped initial values `[1, 3]`, whose
levels differ by 2: the claimed `res[i+1] ≤ res[i] + 1` fails on the code
for inputs whose `maxSubProj` is itself incompatible. -/
theorem claim_C3_counterexample :
    computeTValue (fun _ => [])
        [⟨3, 3, [[false, false, false], [false, false, false], [false, false, false]]⟩,
          ⟨3, 3, [[false, false, false], [false, false, false], [false, false, false]]⟩]
        1 [0, 3] = [1, 3] ∧
      ¬((computeTValue (fun _ => [])
          [⟨3, 3, [[false, false, false], [false, false, false], [false, false, false]]⟩,
            ⟨3, 3, [[false, false, false], [false, false, false], [false, false, false]]⟩]
          1 [0, 3]).getD 1 0 ≤
        (computeTValue (fun _ => [])
          [⟨3, 3, [[false, false, false], [false, false, false], [false, false, false]]⟩,
            ⟨3, 3, [[false, false, false], [false, false, false], [false, false, false]]⟩]
          1 [0, 3]).getD 0 0 + 1) := by
  constructor
  · rfl
  · decide

/-- All-false rows have rank 0 on any column prefix. -/
theorem allFalse_rankAux (c : ℕ) :
    ∀ rows : List Row, (∀ r ∈ rows, ∀ b ∈ r, b = false) → rankAux c rows = 0 := by
  induction c with
  | zero => intro rows _; rfl
  | succ c ih =>
      intro rows h
      rw [rankAux]
      have hfind : rows.findIdx? (fun r => r.headD false) = none := by
        apply List.findIdx?_eq_none_iff.mpr
        intro r hr
        cases r with
        | nil => rfl
        | cons b bs => exact h _ hr b (List.mem_cons_self b bs)
      rw [hfind]
      apply ih
      intro r hr
      obtain ⟨r', hr', rfl⟩ := List.mem_map.mp hr
      intro b hb
      exact h r' hr' b (List.mem_of_mem_tail hb)

/-- The 3-by-3 zero matrix, used as the C3 witness net. -/
def zeroMat3 : GeneratingMatrix :=
  ⟨3, 3, [[false, false, false], [false, false, false], [false, false, false]]⟩

theorem zeroMat3_row_allFalse (i : ℕ) : ∀ b ∈ zeroMat3.row i, b = false := by
  intro b hb
  unfold GeneratingMatrix.row zeroMat3 at hb
  rcases Nat.lt_or_ge i 3 with h | h
  · interval_cases i <;> simpa using hb
  · rw [List.getD_eq_default _ _
      (by simp only [List.length_cons, List.length_nil]; omega)] at hb
    exact List.eq_of_mem_replicate hb

theorem zeroMat3_seed_allFalse (k : ℕ) :
    ∀ r ∈ seedLayout [zeroMat3, zeroMat3] k, ∀ b ∈ r, b = false := by
  intro r hr
  unfold seedLayout at hr
  rcases List.mem_append.mp hr with h | h
  · obtain ⟨i, _, rfl⟩ := List.mem_map.mp h
    exact zeroMat3_row_allFalse i
  · obtain ⟨i, _, rfl⟩ := List.mem_map.mp h
    have hz : ([zeroMat3, zeroMat3] : List GeneratingMatrix).getD
        ([zeroMat3, zeroMat3].length - 1 - i) default = zeroMat3 := by
      rcases hn : ([zeroMat3, zeroMat3] : List GeneratingMatrix).length - 1 - i
        with _ | _ | n
      · rfl
      · rfl
      · exfalso
        simp only [List.length_cons, List.length_nil] at hn
        omega
    rw [hz]
    exact zeroMat3_row_allFalse 0

/-- With the zero net every `iteration_on_k` is the immediate skip:
it returns `nCols = 3` for every `k`. -/
theorem zeroMat3_riter (k : ℕ) :
    riter (fun _ => []) [zeroMat3, zeroMat3] k = 3 := by
  have hrank0 : ∀ c, rankAux c (seedReducer [zeroMat3, zeroMat3] k).rows = 0 := by
    intro c
    rw [seedReducer_eq]
    exact allFalse_rankAux c _ (zeroMat3_seed_allFalse k)
  have hlen1 : 1 ≤ (seedReducer [zeroMat3, zeroMat3] k).rows.length := by
    rw [seedReducer_eq]
    unfold seedLayout
    simp only [List.length_append, List.length_map, List.length_range, List.length_range']
    omega
  have hfind : (List.range ((seedReducer [zeroMat3, zeroMat3] k).nCols + 1)).find?
      (fun c => rankAux c (seedReducer [zeroMat3, zeroMat3] k).rows ==
        (seedReducer [zeroMat3, zeroMat3] k).rows.length) = none := by
    apply List.find?_eq_none.mpr
    intro c _
    simp only [hrank0 c, beq_iff_eq]
    omega
  have hsfr : (seedReducer [zeroMat3, zeroMat3] k).smallestFullRank =
      (seedReducer [zeroMat3, zeroMat3] k).nCols + 1 := by
    unfold ProgressiveRowReducer.smallestFullRank
    rw [hfind]
    rfl
  have hcond : (seedReducer [zeroMat3, zeroMat3] k).smallestFullRank - 1 =
      ([zeroMat3, zeroMat3].getD 0 default).nCols := by
    rw [hsfr, seedReducer_eq]
    simp
  unfold riter iteration_on_k
  rw [if_pos hcond]
  rfl

/-- C3 witness at the zero net with bound vector `[0, 0]`: the result is
`[1, 2]`, which dominates the bounds and rises by exactly one per level. -/
theorem claim_C3_multilevel_invariants_witness :
    (computeTValue (fun _ => []) [zeroMat3, zeroMat3] 1 [0, 0]).length =
        ([0, 0] : List ℕ).length ∧
      (∀ i, i < ([0, 0] : List ℕ).length →
        ([0, 0] : List ℕ).getD i 0 ≤
          (computeTValue (fun _ => []) [zeroMat3, zeroMat3] 1 [0, 0]).getD i 0) ∧
      (∀ i, i + 1 < ([0, 0] : List ℕ).length →
        (computeTValue (fun _ => []) [zeroMat3, zeroMat3] 1 [0, 0]).getD (i + 1) 0 ≤
          (computeTValue (fun _ => []) [zeroMat3, zeroMat3] 1 [0, 0]).getD i 0 + 1) :=
  claim_C3_multilevel_invariants (fun _ => []) [zeroMat3, zeroMat3] 1 [0, 0]
    (by decide)
    (by decide)
    (by decide)
    (by
      intro i hi
      have hi0 : i = 0 := by
        simp only [List.length_cons, List.length_nil] at hi
        omega
      subst hi0
      decide)
    (by decide)
    (by
      intro j k h1 h2 hne1 _
      exact absurd (zeroMat3_riter j) hne1)

/-- C4 witness at the 2-by-2 identity matrix: the unilevel overload gives
0 and, every level having its full pivot count, the biconditional yields
the all-zero multilevel vector. -/
theorem claim_C4_singleMatrix_witness :
    computeTValueUnilevel (fun _ => []) [⟨2, 2, [[true, false], [false, true]]⟩] 0 = 0 ∧
      ∀ t ∈ computeTValue (fun _ => []) [⟨2, 2, [[true, false], [false, true]]⟩] 0 [0, 0],
        t = 0 :=
  ⟨(claim_C4_singleMatrix (fun _ => [])
      ⟨2, 2, [[true, false], [false, true]]⟩ 0 [0, 0] 0).1,
    (claim_C4_singleMatrix (fun _ => [])
        ⟨2, 2, [[true, false], [false, true]]⟩ 0 [0, 0] 0).2.2.1.mpr
      (by
        intro c h1 h2
        have h2b : c < 2 := h2
        interval_cases c <;> rfl)⟩

end LatNet
